import Mathlib

/-! # day02/example.c : reading a name into `char buffer[10]`

A shallow embedding of `main` of `src/day02/example.c`, and of the safer
alternative the file gives in its comment.

The program calls routines of the C standard library: `printf` and `gets`, and
in the alternative `fgets` and `strcspn`.  They are not part of the repository
and are modelled after their description in ISO C99 (§7.19.6.3, §7.19.7.7,
§7.19.7.2, §7.21.5.3).

* Standard input is the list of bytes still unread, standard output the list
  of bytes written so far.
* A `char` array of `n` elements is a list of `n` bytes.  Every store and every
  load is checked against the bounds of the array: an access at an index
  outside of it ends the run in a `Fault` (undefined behaviour in C).
* The array of `main` is not initialised, so its initial contents are a
  parameter of `main`.
* `main` checks the loads of `printf` against the array as well.  A running
  program does not: a string read that leaves the array goes on through the
  bytes that follow it in memory.  `mainInFrame` is `main` with these bytes
  given, and agrees with `main` when there are none.
* `gets` and `fgets` are given as the sequence of assignments `s[idx] = val`
  they perform, in program order, together with their return value and the
  input they leave unread; `storeAll` then carries these assignments out on
  the array, one at a time, and stops at the first one that is out of bounds.
-/

namespace Day02

/-- A `char` as a byte. -/
abbrev Byte := Fin 256

/-- The terminator of a C string, `'\0'`. -/
def NUL : Byte := 0

/-- The new-line character, `'\n'`. -/
def NEWLINE : Byte := 10

/-- Number of elements of `char buffer[10]` (and of `char safe_buffer[10]`). -/
def BUFSZ : Nat := 10

/-- The bytes of a string literal of the source; all of them are ASCII. -/
def lit (s : String) : List Byte :=
  s.toList.map fun c => Fin.ofNat c.toNat

/-- A `char` array of `n` elements. -/
structure CharArray (n : Nat) where
  bytes : List Byte
  size_eq : bytes.length = n

/-- Undefined behaviour the bounds checks detect. -/
inductive Fault where
  /-- an assignment `a[idx] = _` with `idx` outside the array -/
  | storeOutOfBounds (idx : Nat)
  /-- a read of `a[idx]` with `idx` outside the array -/
  | loadOutOfBounds (idx : Nat)
  deriving DecidableEq, Repr

/-- One assignment `s[idx] = val`. -/
structure Store where
  idx : Nat
  val : Byte
  deriving DecidableEq, Repr

/-- What a call of `gets` or `fgets` does: the assignments to its destination
in program order, whether it returns its argument (`true`) or a null pointer
(`false`), and the bytes of the stream it leaves unread. -/
structure ReadRun where
  stores : List Store
  ok : Bool
  rest : List Byte
  deriving DecidableEq, Repr

/-- How a run of the program ends. -/
inductive Outcome where
  /-- `main` returns `status`; `stdout` is everything written, `stdin` the
  bytes left unread -/
  | exit (status : Int) (stdout : List Byte) (stdin : List Byte)
  /-- an out-of-bounds access; `stdout` is what had been written before it -/
  | fault (f : Fault) (stdout : List Byte)
  deriving DecidableEq, Repr

/-- The first line of an input: its bytes before the first new-line, or all of
them when it has none. -/
def firstLine (input : List Byte) : List Byte :=
  input.takeWhile fun c => c ≠ NEWLINE

/-- The loop of `gets(s)`, with `i` bytes stored so far: bytes are read and
stored at `s[i]`, `s[i+1]`, ... until end-of-file or a new-line; the new-line
is read and discarded and a null character is stored after the last byte.
At end-of-file with nothing stored, nothing is assigned and the result is a
null pointer.  There is no bound on `i`: `gets` does not know the size of `s`. -/
def getsFrom : Nat → List Byte → ReadRun
  | i, [] => if i = 0 then ⟨[], false, []⟩ else ⟨[⟨i, NUL⟩], true, []⟩
  | i, c :: cs =>
    if c = NEWLINE then ⟨[⟨i, NUL⟩], true, cs⟩
    else
      let r := getsFrom (i + 1) cs
      ⟨⟨i, c⟩ :: r.stores, r.ok, r.rest⟩

/-- The call `gets(s)` on the standard input `input`. -/
def gets (input : List Byte) : ReadRun :=
  getsFrom 0 input

/-- The loop of `fgets(s, n, stream)` with `i` bytes stored so far and `room`
more bytes allowed (`n - 1` at the start): bytes are read and stored until
`room` is used up, a new-line has been stored, or end-of-file; then a null
character is stored.  At end-of-file with nothing stored, nothing is assigned
and the result is a null pointer.  The program calls it with `n = 10` only. -/
def fgetsFrom : Nat → Nat → List Byte → ReadRun
  | 0, i, input => ⟨[⟨i, NUL⟩], true, input⟩
  | _ + 1, i, [] => if i = 0 then ⟨[], false, []⟩ else ⟨[⟨i, NUL⟩], true, []⟩
  | room + 1, i, c :: cs =>
    if c = NEWLINE then ⟨[⟨i, c⟩, ⟨i + 1, NUL⟩], true, cs⟩
    else
      let r := fgetsFrom room (i + 1) cs
      ⟨⟨i, c⟩ :: r.stores, r.ok, r.rest⟩

/-- The call `fgets(s, n, stdin)`. -/
def fgets (n : Nat) (input : List Byte) : ReadRun :=
  fgetsFrom (n - 1) 0 input

/-- The assignment `mem[s.idx] = s.val`, checked against the bounds of `mem`. -/
def store (mem : List Byte) (s : Store) : Except Fault (List Byte) :=
  if s.idx < mem.length then .ok (mem.set s.idx s.val)
  else .error (.storeOutOfBounds s.idx)

/-- Carries out assignments in order, stopping at the first one out of bounds. -/
def storeAll : List Byte → List Store → Except Fault (List Byte)
  | mem, [] => .ok mem
  | mem, s :: ss =>
    match store mem s with
    | .error f => .error f
    | .ok mem1 => storeAll mem1 ss

/-- The bytes `printf` prints for `%s`: those from `a[i]` on, up to the first
null character; `mem` is what is left of the array from index `i`.  Reaching
the end of the array without a null character is a load out of bounds. -/
def readCStr : List Byte → Nat → Except Fault (List Byte)
  | [], i => .error (.loadOutOfBounds i)
  | b :: bs, i =>
    if b = NUL then .ok []
    else
      match readCStr bs (i + 1) with
      | .error f => .error f
      | .ok s => .ok (b :: s)

/-- The scan of `strcspn(a, "\n")`: the number of bytes before the first
new-line or null character, counted from `i`; `mem` is what is left of the
array from index `i`. -/
def strcspnNewline : List Byte → Nat → Except Fault Nat
  | [], i => .error (.loadOutOfBounds i)
  | b :: bs, i =>
    if b = NUL ∨ b = NEWLINE then .ok i
    else strcspnNewline bs (i + 1)

/-- The function `main` of `example.c`, run with the uninitialised contents
`buffer` of its array on the standard input `input`.
```
char buffer[10];
printf("Enter your name: ");
gets(buffer);
printf("Hello, %s!\n", buffer);
return 0;
```
The value `gets` returns is not looked at. -/
def main (buffer : CharArray BUFSZ) (input : List Byte) : Outcome :=
  let out := lit "Enter your name: "
  let r := gets input
  match storeAll buffer.bytes r.stores with
  | .error f => .fault f out
  | .ok mem =>
    match readCStr mem 0 with
    | .error f => .fault f out
    | .ok s => .exit 0 (out ++ (lit "Hello, " ++ s ++ lit "!\n")) r.rest

/-- The function `main` of `example.c` as it runs in memory: `frame` holds the
bytes that follow `buffer[9]` in the stack frame of `main` and beyond, as far
as a load can go.  The statements are those of `main`; the assignments are
checked against the array as before, while the string `printf` prints for `%s`
is read from the array and then on from `frame`. -/
def mainInFrame (frame : List Byte) (buffer : CharArray BUFSZ) (input : List Byte) :
    Outcome :=
  let out := lit "Enter your name: "
  let r := gets input
  match storeAll buffer.bytes r.stores with
  | .error f => .fault f out
  | .ok mem =>
    match readCStr (mem ++ frame) 0 with
    | .error f => .fault f out
    | .ok s => .exit 0 (out ++ (lit "Hello, " ++ s ++ lit "!\n")) r.rest

/-- The safer alternative of the comment in `example.c`, as a `main` of its own.
```
char safe_buffer[10];
printf("Enter your name safely: ");
if (fgets(safe_buffer, sizeof(safe_buffer), stdin) != NULL) {
    safe_buffer[strcspn(safe_buffer, "\n")] = 0;
    printf("Hello safely, %s!\n", safe_buffer);
}
return 0;
``` -/
def safeMain (safe_buffer : CharArray BUFSZ) (input : List Byte) : Outcome :=
  let out := lit "Enter your name safely: "
  let r := fgets BUFSZ input
  match storeAll safe_buffer.bytes r.stores with
  | .error f => .fault f out
  | .ok mem =>
    if r.ok then
      match strcspnNewline mem 0 with
      | .error f => .fault f out
      | .ok k =>
        match store mem ⟨k, NUL⟩ with
        | .error f => .fault f out
        | .ok mem1 =>
          match readCStr mem1 0 with
          | .error f => .fault f out
          | .ok s => .exit 0 (out ++ (lit "Hello safely, " ++ s ++ lit "!\n")) r.rest
    else .exit 0 out r.rest

/-- An array of `BUFSZ` bytes all equal to `b`. -/
def filled (b : Byte) : CharArray BUFSZ :=
  ⟨List.replicate BUFSZ b, List.length_replicate BUFSZ b⟩

/-- Everything a run has written to standard output. -/
def Outcome.stdout : Outcome → List Byte
  | .exit _ out _ => out
  | .fault _ out => out

/-- The assignments that write the bytes of `line` at `s[i]`, `s[i+1]`, ... and
a null character after them. -/
def lineStores : Nat → List Byte → List Store
  | i, [] => [⟨i, NUL⟩]
  | i, c :: cs => ⟨i, c⟩ :: lineStores (i + 1) cs

/-- The bytes `fgets` reads and stores when `room` more are allowed: those up
to and including the first new-line, or the first `room` bytes, or all there
are, whichever ends first. -/
def fgetsChunk : Nat → List Byte → List Byte
  | 0, _ => []
  | _ + 1, [] => []
  | room + 1, c :: cs => if c = NEWLINE then [c] else c :: fgetsChunk room cs

/-- The test of the scan of `strcspn(a, "\n")`: the byte neither ends the
string nor is a new-line. -/
def inSpan (b : Byte) : Bool :=
  b ≠ NUL && b ≠ NEWLINE

/-! ## The assignments of `gets` -/

theorem firstLine_nil : firstLine [] = [] := rfl

theorem firstLine_cons_newline (cs : List Byte) : firstLine (NEWLINE :: cs) = [] := by
  simp [firstLine]

theorem firstLine_cons_of_ne {c : Byte} (h : c ≠ NEWLINE) (cs : List Byte) :
    firstLine (c :: cs) = c :: firstLine cs := by
  simp [firstLine, h]

theorem firstLine_append_newline (line rest : List Byte) (h : NEWLINE ∉ line) :
    firstLine (line ++ NEWLINE :: rest) = line := by
  induction line with
  | nil => exact firstLine_cons_newline rest
  | cons c cs ih =>
    have hc : c ≠ NEWLINE := fun e => h (by simp [e])
    have hcs : NEWLINE ∉ cs := fun e => h (List.mem_cons_of_mem c e)
    rw [List.cons_append, firstLine_cons_of_ne hc, ih hcs]

theorem drop_append_newline (line rest : List Byte) :
    (line ++ NEWLINE :: rest).drop (line.length + 1) = rest := by
  induction line with
  | nil => rfl
  | cons c cs ih => simp

theorem lineStores_map_idx (i : Nat) (line : List Byte) :
    (lineStores i line).map Store.idx = List.range' i (line.length + 1) := by
  induction line generalizing i with
  | nil => rfl
  | cons c cs ih => simp [lineStores, ih, List.range'_succ]

theorem lineStores_map_val (i : Nat) (line : List Byte) :
    (lineStores i line).map Store.val = line ++ [NUL] := by
  induction line generalizing i with
  | nil => rfl
  | cons c cs ih => simp [lineStores, ih]

theorem lineStores_length (i : Nat) (line : List Byte) :
    (lineStores i line).length = line.length + 1 := by
  induction line generalizing i with
  | nil => rfl
  | cons c cs ih => simp [lineStores, ih]

theorem mem_lineStores_idx {i : Nat} {line : List Byte} {s : Store}
    (h : s ∈ lineStores i line) : i ≤ s.idx ∧ s.idx ≤ i + line.length := by
  have h1 : s.idx ∈ (lineStores i line).map Store.idx := List.mem_map_of_mem _ h
  rw [lineStores_map_idx, List.mem_range'_1] at h1
  omega

theorem last_mem_lineStores (i : Nat) (line : List Byte) :
    (⟨i + line.length, NUL⟩ : Store) ∈ lineStores i line := by
  induction line generalizing i with
  | nil => simp [lineStores]
  | cons c cs ih =>
    have h := ih (i + 1)
    have e : i + 1 + cs.length = i + (c :: cs).length := by simp; omega
    rw [e] at h
    exact List.mem_cons_of_mem _ h

/-- What `gets` does once it has stored a byte or has one to read: it writes
the first line and a null character, returns its argument, and leaves unread
what follows the new-line. -/
theorem getsFrom_eq (i : Nat) (input : List Byte) (h : i ≠ 0 ∨ input ≠ []) :
    getsFrom i input =
      ⟨lineStores i (firstLine input), true, input.drop ((firstLine input).length + 1)⟩ := by
  induction input generalizing i with
  | nil =>
    have hi : i ≠ 0 := by simpa using h
    simp [getsFrom, hi, firstLine_nil, lineStores]
  | cons c cs ih =>
    by_cases hc : c = NEWLINE
    · subst hc
      simp [getsFrom, firstLine_cons_newline, lineStores]
    · simp [getsFrom, hc, firstLine_cons_of_ne hc, lineStores, ih (i + 1) (Or.inl (by omega))]

theorem gets_eq (input : List Byte) (h : input ≠ []) :
    gets input =
      ⟨lineStores 0 (firstLine input), true, input.drop ((firstLine input).length + 1)⟩ :=
  getsFrom_eq 0 input (Or.inr h)

theorem gets_nil : gets [] = ⟨[], false, []⟩ := rfl

/-! ## Carrying the assignments out on an array -/

theorem store_append (pre : List Byte) (b : Byte) (suf : List Byte) (v : Byte) :
    store (pre ++ b :: suf) ⟨pre.length, v⟩ = .ok (pre ++ v :: suf) := by
  simp [store]

theorem store_at_end (pre : List Byte) (v : Byte) :
    store pre ⟨pre.length, v⟩ = .error (.storeOutOfBounds pre.length) := by
  simp [store]

/-- In bounds: the line and its terminator replace the bytes of the array from
index `pre.length` on. -/
theorem storeAll_lineStores (pre suf line : List Byte) (h : line.length < suf.length) :
    storeAll (pre ++ suf) (lineStores pre.length line) =
      .ok (pre ++ line ++ NUL :: suf.drop (line.length + 1)) := by
  induction line generalizing pre suf with
  | nil =>
    cases suf with
    | nil => simp at h
    | cons b bs => simp [lineStores, storeAll, store_append]
  | cons c cs ih =>
    cases suf with
    | nil => simp at h
    | cons b bs =>
      have hlen : cs.length < bs.length := by simpa using h
      have e := ih (pre ++ [c]) bs hlen
      simp only [List.length_append, List.length_singleton, List.append_assoc,
        List.singleton_append] at e
      simp [lineStores, storeAll, store_append, e]

/-- Out of bounds: the first assignment past the end of the array faults. -/
theorem storeAll_lineStores_fault (pre suf line : List Byte) (h : suf.length ≤ line.length) :
    storeAll (pre ++ suf) (lineStores pre.length line) =
      .error (.storeOutOfBounds (pre.length + suf.length)) := by
  induction line generalizing pre suf with
  | nil =>
    cases suf with
    | nil => simp [lineStores, storeAll, store_at_end]
    | cons b bs => simp at h
  | cons c cs ih =>
    cases suf with
    | nil => simp [lineStores, storeAll, store_at_end]
    | cons b bs =>
      have hlen : bs.length ≤ cs.length := by simpa using h
      have e := ih (pre ++ [c]) bs hlen
      simp only [List.length_append, List.length_singleton, List.append_assoc,
        List.singleton_append] at e
      simp [lineStores, storeAll, store_append, e]
      omega

/-! ## What `printf` reads for `%s` -/

theorem readCStr_append_nul (q t : List Byte) (i : Nat) :
    readCStr (q ++ NUL :: t) i = .ok (q.takeWhile fun b => b ≠ NUL) := by
  induction q generalizing i with
  | nil => simp [readCStr]
  | cons b bs ih =>
    by_cases hb : b = NUL
    · simp [readCStr, hb]
    · simp [readCStr, hb, ih]

theorem readCStr_of_not_mem (q : List Byte) (i : Nat) (h : NUL ∉ q) :
    readCStr q i = .error (.loadOutOfBounds (i + q.length)) := by
  induction q generalizing i with
  | nil => simp [readCStr]
  | cons b bs ih =>
    have hb : b ≠ NUL := fun e => h (by simp [e])
    have hbs : NUL ∉ bs := fun e => h (List.mem_cons_of_mem b e)
    simp [readCStr, hb, ih (i + 1) hbs]
    omega

theorem takeWhile_append_stop (p : Byte → Bool) (a t : List Byte) (x : Byte)
    (hx : p x = false) : (a ++ x :: t).takeWhile p = a.takeWhile p := by
  induction a with
  | nil => simp [hx]
  | cons y ys ih =>
    rw [List.cons_append, List.takeWhile_cons, List.takeWhile_cons, ih]

theorem readCStr_of_mem (q : List Byte) (i : Nat) (h : NUL ∈ q) :
    readCStr q i = .ok (q.takeWhile fun b => b ≠ NUL) := by
  obtain ⟨a, t, rfl, _⟩ := List.eq_append_cons_of_mem h
  rw [readCStr_append_nul, takeWhile_append_stop _ a t NUL (by simp)]

theorem takeWhile_ne_nul_of_not_mem (q : List Byte) (h : NUL ∉ q) :
    (q.takeWhile fun b => b ≠ NUL) = q := by
  rw [List.takeWhile_eq_self_iff]
  intro x hx
  have : x ≠ NUL := fun e => h (e ▸ hx)
  simpa using this

/-! ## Runs of `main` -/

/-- A first line that fits: the greeting is printed with the line cut at its
first null character, whatever the array held before. -/
theorem main_of_fits (buffer : CharArray BUFSZ) (input : List Byte) (h : input ≠ [])
    (hlen : (firstLine input).length ≤ 9) :
    main buffer input =
      .exit 0
        (lit "Enter your name: " ++
          (lit "Hello, " ++ ((firstLine input).takeWhile fun b => b ≠ NUL) ++ lit "!\n"))
        (input.drop ((firstLine input).length + 1)) := by
  have hb : (firstLine input).length < buffer.bytes.length := by
    rw [buffer.size_eq, BUFSZ]; omega
  have e := storeAll_lineStores [] buffer.bytes (firstLine input) hb
  simp only [List.length_nil, List.nil_append] at e
  simp only [main, gets_eq input h, e, readCStr_append_nul]

/-- A first line that does not fit: the assignment to `buffer[10]` faults. -/
theorem main_of_long (buffer : CharArray BUFSZ) (input : List Byte)
    (hlen : 9 < (firstLine input).length) :
    main buffer input = .fault (.storeOutOfBounds BUFSZ) (lit "Enter your name: ") := by
  have h : input ≠ [] := by
    rintro rfl
    simp [firstLine_nil] at hlen
  have hb : buffer.bytes.length ≤ (firstLine input).length := by
    rw [buffer.size_eq, BUFSZ]; omega
  have e := storeAll_lineStores_fault [] buffer.bytes (firstLine input) hb
  simp only [List.length_nil, List.nil_append, Nat.zero_add, buffer.size_eq] at e
  simp only [main, gets_eq input h, e]

/-- No input at all: nothing is stored, and the greeting is printed from the
array as it was. -/
theorem main_nil (buffer : CharArray BUFSZ) :
    main buffer [] =
      match readCStr buffer.bytes 0 with
      | .error f => .fault f (lit "Enter your name: ")
      | .ok s => .exit 0 (lit "Enter your name: " ++ (lit "Hello, " ++ s ++ lit "!\n")) [] := by
  simp only [main, gets_nil, storeAll]

theorem main_nil_of_mem (buffer : CharArray BUFSZ) (h : NUL ∈ buffer.bytes) :
    main buffer [] =
      .exit 0
        (lit "Enter your name: " ++
          (lit "Hello, " ++ (buffer.bytes.takeWhile fun b => b ≠ NUL) ++ lit "!\n")) [] := by
  rw [main_nil, readCStr_of_mem _ _ h]

theorem main_nil_of_not_mem (buffer : CharArray BUFSZ) (h : NUL ∉ buffer.bytes) :
    main buffer [] = .fault (.loadOutOfBounds BUFSZ) (lit "Enter your name: ") := by
  rw [main_nil, readCStr_of_not_mem _ _ h, buffer.size_eq, Nat.zero_add]

theorem newline_not_mem_firstLine (input : List Byte) : NEWLINE ∉ firstLine input := by
  intro h
  have := List.mem_takeWhile_imp h
  simp at this

/-! ## Runs of `main` in memory -/

theorem mainInFrame_nil (buffer : CharArray BUFSZ) (input : List Byte) :
    mainInFrame [] buffer input = main buffer input := by
  simp only [mainInFrame, main, List.append_nil]

/-- A first line that fits: the terminator `gets` stored stops the read inside
the array, so the bytes behind it play no part. -/
theorem mainInFrame_of_fits (frame : List Byte) (buffer : CharArray BUFSZ)
    (input : List Byte) (h : input ≠ []) (hlen : (firstLine input).length ≤ 9) :
    mainInFrame frame buffer input =
      .exit 0
        (lit "Enter your name: " ++
          (lit "Hello, " ++ ((firstLine input).takeWhile fun b => b ≠ NUL) ++ lit "!\n"))
        (input.drop ((firstLine input).length + 1)) := by
  have hb : (firstLine input).length < buffer.bytes.length := by
    rw [buffer.size_eq, BUFSZ]; omega
  have e := storeAll_lineStores [] buffer.bytes (firstLine input) hb
  simp only [List.length_nil, List.nil_append] at e
  simp only [mainInFrame, gets_eq input h, e, List.append_assoc, List.cons_append,
    readCStr_append_nul]

theorem mainInFrame_of_long (frame : List Byte) (buffer : CharArray BUFSZ)
    (input : List Byte) (hlen : 9 < (firstLine input).length) :
    mainInFrame frame buffer input =
      .fault (.storeOutOfBounds BUFSZ) (lit "Enter your name: ") := by
  have h : input ≠ [] := by
    rintro rfl
    simp [firstLine_nil] at hlen
  have hb : buffer.bytes.length ≤ (firstLine input).length := by
    rw [buffer.size_eq, BUFSZ]; omega
  have e := storeAll_lineStores_fault [] buffer.bytes (firstLine input) hb
  simp only [List.length_nil, List.nil_append, Nat.zero_add, buffer.size_eq] at e
  simp only [mainInFrame, gets_eq input h, e]

/-- No input at all: the greeting prints the array as it was and goes on
through the bytes behind it, up to the first null byte. -/
theorem mainInFrame_no_input (behind more : List Byte) (buffer : CharArray BUFSZ) :
    mainInFrame (behind ++ NUL :: more) buffer [] =
      .exit 0
        (lit "Enter your name: " ++
          (lit "Hello, " ++ ((buffer.bytes ++ behind).takeWhile fun b => b ≠ NUL) ++
            lit "!\n")) [] := by
  have e : buffer.bytes ++ (behind ++ NUL :: more) = (buffer.bytes ++ behind) ++ NUL :: more := by
    rw [List.append_assoc]
  simp only [mainInFrame, gets_nil, storeAll, e, readCStr_append_nul]

/-! ## The safer alternative -/

theorem fgetsChunk_length_le (room : Nat) (input : List Byte) :
    (fgetsChunk room input).length ≤ room := by
  induction room generalizing input with
  | zero => simp [fgetsChunk]
  | succ r ih =>
    cases input with
    | nil => simp [fgetsChunk]
    | cons c cs =>
      by_cases hc : c = NEWLINE
      · simp [fgetsChunk, hc]
      · have := ih cs
        simp [fgetsChunk, hc]
        omega

theorem fgetsChunk_prefix (room : Nat) (input : List Byte) :
    fgetsChunk room input <+: input := by
  induction room generalizing input with
  | zero => simp [fgetsChunk]
  | succ r ih =>
    cases input with
    | nil => simp [fgetsChunk]
    | cons c cs =>
      by_cases hc : c = NEWLINE
      · simp [fgetsChunk, hc, List.prefix_cons_inj]
      · simp [fgetsChunk, hc, List.prefix_cons_inj, ih cs]

/-- What `fgets` does once it has stored a byte, has one to read, or has no
room left: it writes the chunk and a null character and returns its argument. -/
theorem fgetsFrom_eq (room i : Nat) (input : List Byte) (h : room = 0 ∨ i ≠ 0 ∨ input ≠ []) :
    fgetsFrom room i input =
      ⟨lineStores i (fgetsChunk room input), true,
        input.drop (fgetsChunk room input).length⟩ := by
  induction room generalizing i input with
  | zero => simp [fgetsFrom, fgetsChunk, lineStores]
  | succ r ih =>
    cases input with
    | nil =>
      have hi : i ≠ 0 := by simpa using h
      simp [fgetsFrom, fgetsChunk, lineStores, hi]
    | cons c cs =>
      by_cases hc : c = NEWLINE
      · simp [fgetsFrom, fgetsChunk, lineStores, hc]
      · simp [fgetsFrom, fgetsChunk, lineStores, hc, ih (i + 1) cs (Or.inr (Or.inl (by omega)))]

theorem fgets_eq (input : List Byte) (h : input ≠ []) :
    fgets BUFSZ input =
      ⟨lineStores 0 (fgetsChunk 9 input), true, input.drop (fgetsChunk 9 input).length⟩ :=
  fgetsFrom_eq 9 0 input (Or.inr (Or.inr h))

theorem fgets_nil : fgets BUFSZ [] = ⟨[], false, []⟩ := rfl

theorem strcspnNewline_append_nul (l t : List Byte) (i : Nat) :
    strcspnNewline (l ++ NUL :: t) i = .ok (i + (l.takeWhile inSpan).length) := by
  induction l generalizing i with
  | nil => simp [strcspnNewline]
  | cons b bs ih =>
    by_cases hb : b = NUL ∨ b = NEWLINE
    · have hs : inSpan b = false := by
        rcases hb with hb | hb <;> simp [inSpan, hb]
      simp [strcspnNewline, hb, hs]
    · have hs : inSpan b = true := by
        simp only [not_or] at hb
        simp [inSpan, hb.1, hb.2]
      simp [strcspnNewline, hb, hs, ih]
      omega

theorem nul_not_mem_takeWhile_inSpan (l : List Byte) : NUL ∉ l.takeWhile inSpan := by
  intro h
  have := List.mem_takeWhile_imp h
  simp [inSpan] at this

/-- The greeting of the alternative: the chunk `fgets` stored, cut at its first
new-line or null character. -/
theorem safeMain_of_ne_nil (safe_buffer : CharArray BUFSZ) (input : List Byte)
    (h : input ≠ []) :
    safeMain safe_buffer input =
      .exit 0
        (lit "Enter your name safely: " ++
          (lit "Hello safely, " ++ (fgetsChunk 9 input).takeWhile inSpan ++ lit "!\n"))
        (input.drop (fgetsChunk 9 input).length) := by
  have hlen := fgetsChunk_length_le 9 input
  have hb : (fgetsChunk 9 input).length < safe_buffer.bytes.length := by
    rw [safe_buffer.size_eq, BUFSZ]; omega
  have e := storeAll_lineStores [] safe_buffer.bytes (fgetsChunk 9 input) hb
  simp only [List.length_nil, List.nil_append] at e
  generalize List.drop ((fgetsChunk 9 input).length + 1) safe_buffer.bytes = t at e
  have hk := strcspnNewline_append_nul (fgetsChunk 9 input) t 0
  rw [Nat.zero_add] at hk
  obtain ⟨b, suf, hsplit⟩ : ∃ b suf,
      (fgetsChunk 9 input).dropWhile inSpan ++ NUL :: t = b :: suf := by
    cases (fgetsChunk 9 input).dropWhile inSpan with
    | nil => exact ⟨_, _, rfl⟩
    | cons x xs => exact ⟨_, _, rfl⟩
  have hmem : fgetsChunk 9 input ++ NUL :: t =
      (fgetsChunk 9 input).takeWhile inSpan ++ b :: suf := by
    rw [← hsplit, ← List.append_assoc, List.takeWhile_append_dropWhile]
  have hst := store_append ((fgetsChunk 9 input).takeWhile inSpan) b suf NUL
  rw [← hmem] at hst
  have hrd := readCStr_append_nul ((fgetsChunk 9 input).takeWhile inSpan) suf 0
  rw [takeWhile_ne_nul_of_not_mem _ (nul_not_mem_takeWhile_inSpan _)] at hrd
  simp only [safeMain, fgets_eq input h, e, hk, hst, hrd, if_true]

theorem safeMain_nil (safe_buffer : CharArray BUFSZ) :
    safeMain safe_buffer [] = .exit 0 (lit "Enter your name safely: ") [] := by
  simp [safeMain, fgets_nil, storeAll]

/-- Without a null byte, the greeting of the alternative is the first line cut
to the room `fgets` has. -/
theorem takeWhile_inSpan_fgetsChunk (room : Nat) (input : List Byte)
    (h : NUL ∉ (firstLine input).take room) :
    (fgetsChunk room input).takeWhile inSpan = (firstLine input).take room := by
  induction room generalizing input with
  | zero => simp [fgetsChunk]
  | succ r ih =>
    cases input with
    | nil => simp [fgetsChunk, firstLine_nil]
    | cons c cs =>
      by_cases hc : c = NEWLINE
      · subst hc
        simp [fgetsChunk, firstLine_cons_newline, inSpan]
      · rw [firstLine_cons_of_ne hc, List.take_succ_cons] at h
        have hn : c ≠ NUL := fun e => h (by simp [e])
        have hrest : NUL ∉ (firstLine cs).take r := fun e => h (List.mem_cons_of_mem c e)
        have hs : inSpan c = true := by simp [inSpan, hc, hn]
        rw [firstLine_cons_of_ne hc, List.take_succ_cons]
        simp [fgetsChunk, hc, hs, ih cs hrest]

/-! ## The claims -/

/-- C1. For every standard input whose first line (the bytes before the first
new-line, or before end-of-input when at least one byte was read) has no null
byte and at most 9 bytes, `main` returns 0 having written to standard output
exactly the prompt, then `Hello, `, the line without its new-line, and `!\n`;
this for every initial content of the array.  The input left unread is what
follows the new-line. -/
theorem main_greets_first_line (buffer : CharArray BUFSZ) (input : List Byte)
    (hread : input ≠ []) (hnul : NUL ∉ firstLine input)
    (hlen : (firstLine input).length ≤ 9) :
    main buffer input =
      .exit 0 (lit "Enter your name: " ++ (lit "Hello, " ++ firstLine input ++ lit "!\n"))
        (input.drop ((firstLine input).length + 1)) := by
  rw [main_of_fits buffer input hread hlen, takeWhile_ne_nul_of_not_mem _ hnul]

theorem main_greets_first_line_witness :
    lit "Ada\nLovelace\n" ≠ [] ∧ NUL ∉ firstLine (lit "Ada\nLovelace\n") ∧
    (firstLine (lit "Ada\nLovelace\n")).length ≤ 9 ∧
    main (filled 0x55) (lit "Ada\nLovelace\n") =
      .exit 0 (lit "Enter your name: " ++ (lit "Hello, " ++ lit "Ada" ++ lit "!\n"))
        (lit "Lovelace\n") :=
  ⟨by decide, by decide, by decide,
    main_greets_first_line (filled 0x55) (lit "Ada\nLovelace\n")
      (by decide) (by decide) (by decide)⟩

/-- C2. If the first line of the input has more than 9 bytes, `gets` assigns to
an element of index at least 10 of the 10-element array `buffer`, and the run of
`main` ends in the out-of-bounds store at `buffer[10]`, after the prompt only. -/
theorem gets_overflows_on_long_line (buffer : CharArray BUFSZ) (input : List Byte)
    (hlen : 9 < (firstLine input).length) :
    (∃ s ∈ (gets input).stores, BUFSZ ≤ s.idx) ∧
    main buffer input = .fault (.storeOutOfBounds BUFSZ) (lit "Enter your name: ") := by
  have h : input ≠ [] := by
    rintro rfl
    simp [firstLine_nil] at hlen
  refine ⟨⟨⟨0 + (firstLine input).length, NUL⟩, ?_, ?_⟩, main_of_long buffer input hlen⟩
  · rw [gets_eq input h]
    exact last_mem_lineStores 0 (firstLine input)
  · simp only [BUFSZ]
    omega

theorem gets_overflows_on_long_line_witness :
    9 < (firstLine (lit "0123456789\n")).length ∧
    (∃ s ∈ (gets (lit "0123456789\n")).stores, BUFSZ ≤ s.idx) ∧
    main (filled 0) (lit "0123456789\n") =
      .fault (.storeOutOfBounds BUFSZ) (lit "Enter your name: ") :=
  ⟨by decide, gets_overflows_on_long_line (filled 0) (lit "0123456789\n") (by decide)⟩

/-- C3. The read is unbounded.  For every first line of `n` bytes, `n ≥ 1`, with
no null byte, `gets` performs exactly `n + 1` assignments, to the indices
`0, 1, ..., n` in this order; the values are the `n` bytes of the line in order
and then a null character, and the new-line is not among them.  The statement
holds for every `n`, the capacity 10 of the array plays no part in it; and the
number of assignments exceeds every bound `N` on some input. -/
theorem gets_stores_whole_line :
    (∀ input : List Byte, 1 ≤ (firstLine input).length → NUL ∉ firstLine input →
      (gets input).stores.length = (firstLine input).length + 1 ∧
      (gets input).stores.map Store.idx = List.range ((firstLine input).length + 1) ∧
      (gets input).stores.map Store.val = firstLine input ++ [NUL] ∧
      NEWLINE ∉ (gets input).stores.map Store.val) ∧
    (∀ N : Nat, ∃ input : List Byte,
      1 ≤ (firstLine input).length ∧ NUL ∉ firstLine input ∧
      N < (gets input).stores.length) := by
  constructor
  · intro input hlen _
    have h : input ≠ [] := by
      rintro rfl
      simp [firstLine_nil] at hlen
    rw [gets_eq input h]
    refine ⟨lineStores_length _ _, ?_, lineStores_map_val _ _, ?_⟩
    · rw [lineStores_map_idx, List.range_eq_range']
    · rw [lineStores_map_val]
      intro hmem
      rcases List.mem_append.1 hmem with h1 | h1
      · exact newline_not_mem_firstLine input h1
      · simp [NUL, NEWLINE] at h1
  · intro N
    have hfl : firstLine (List.replicate (N + 1) (65 : Byte)) = List.replicate (N + 1) 65 := by
      unfold firstLine
      rw [List.takeWhile_eq_self_iff]
      intro x hx
      rw [List.eq_of_mem_replicate hx]
      decide
    refine ⟨List.replicate (N + 1) 65, ?_, ?_, ?_⟩
    · simp [hfl]
    · rw [hfl]
      intro hx
      have := List.eq_of_mem_replicate hx
      simp [NUL] at this
    · rw [gets_eq _ (by simp), lineStores_length, hfl, List.length_replicate]
      omega

theorem gets_stores_whole_line_witness :
    1 ≤ (firstLine (lit "0123456789abcdef\nxyz")).length ∧
    NUL ∉ firstLine (lit "0123456789abcdef\nxyz") ∧
    (gets (lit "0123456789abcdef\nxyz")).stores.length = 17 ∧
    (gets (lit "0123456789abcdef\nxyz")).stores.map Store.idx = List.range 17 ∧
    (gets (lit "0123456789abcdef\nxyz")).stores.map Store.val = lit "0123456789abcdef" ++ [NUL] ∧
    NEWLINE ∉ (gets (lit "0123456789abcdef\nxyz")).stores.map Store.val :=
  ⟨by decide, by decide,
    gets_stores_whole_line.1 (lit "0123456789abcdef\nxyz") (by decide) (by decide)⟩

/-- C4. `main` has no failure handling for the read: it does not look at what
`gets` returns.  On the empty input `gets` returns a null pointer and assigns
nothing; `main` has printed the prompt, goes on to the greeting, which prints
the array as it was before the call (the bytes up to the first null byte, in
the array or, when the array holds none, behind it), and returns 0.  And on
every input on which no out-of-bounds store occurs `main` returns 0; it never
returns another status.  This holds for every content of the array and all
bytes `behind ++ NUL :: more` that follow it in memory. -/
theorem main_ignores_read_result (buffer : CharArray BUFSZ) (behind more : List Byte) :
    ((gets []).ok = false ∧ (gets []).stores = []) ∧
    lit "Enter your name: " <+: (mainInFrame (behind ++ NUL :: more) buffer []).stdout ∧
    mainInFrame (behind ++ NUL :: more) buffer [] =
      .exit 0
        (lit "Enter your name: " ++
          (lit "Hello, " ++ ((buffer.bytes ++ behind).takeWhile fun b => b ≠ NUL) ++
            lit "!\n")) [] ∧
    (∀ input : List Byte,
      (∀ idx out,
        mainInFrame (behind ++ NUL :: more) buffer input ≠
          .fault (.storeOutOfBounds idx) out) →
      ∃ out rest, mainInFrame (behind ++ NUL :: more) buffer input = .exit 0 out rest) ∧
    (∀ input status out rest,
      mainInFrame (behind ++ NUL :: more) buffer input = .exit status out rest →
      status = 0) := by
  have hover : ∀ input : List Byte,
      (∃ out rest, mainInFrame (behind ++ NUL :: more) buffer input = .exit 0 out rest) ∨
      mainInFrame (behind ++ NUL :: more) buffer input =
        .fault (.storeOutOfBounds BUFSZ) (lit "Enter your name: ") := by
    intro input
    by_cases hin : input = []
    · subst hin
      exact Or.inl ⟨_, _, mainInFrame_no_input behind more buffer⟩
    · by_cases hlen : (firstLine input).length ≤ 9
      · exact Or.inl ⟨_, _, mainInFrame_of_fits _ buffer input hin hlen⟩
      · exact Or.inr (mainInFrame_of_long _ buffer input (by omega))
  refine ⟨⟨rfl, rfl⟩, ?_, mainInFrame_no_input behind more buffer, ?_, ?_⟩
  · rw [mainInFrame_no_input behind more buffer]
    exact List.prefix_append _ _
  · intro input hno
    rcases hover input with h | h
    · exact h
    · exact absurd h (hno _ _)
  · intro input status out rest h
    rcases hover input with ⟨out1, rest1, h1⟩ | h1
    · rw [h1] at h
      injection h with hs
      exact hs.symm
    · rw [h1] at h
      cases h

theorem main_ignores_read_result_witness :
    mainInFrame [1, 0, 7] (filled 65) [] =
      .exit 0 (lit "Enter your name: " ++ (lit "Hello, " ++ lit "AAAAAAAAAA\x01" ++ lit "!\n")) [] ∧
    mainInFrame [1, 0, 7] (filled 0) [] =
      .exit 0 (lit "Enter your name: " ++ (lit "Hello, " ++ lit "!\n")) [] :=
  ⟨(main_ignores_read_result (filled 65) [1] [7]).2.2.1,
    (main_ignores_read_result (filled 0) [1] [7]).2.2.1⟩

/-- C6. For every input whose first line has at most 9 bytes, every assignment
`gets` performs is to an index below 10, all of them are carried out within
the 10-element array, which keeps its size, and the run of `main` does not end
in an out-of-bounds store. -/
theorem gets_in_bounds_on_short_line (buffer : CharArray BUFSZ) (input : List Byte)
    (hlen : (firstLine input).length ≤ 9) :
    (∀ s ∈ (gets input).stores, s.idx < BUFSZ) ∧
    (∃ mem, storeAll buffer.bytes (gets input).stores = .ok mem ∧ mem.length = BUFSZ) ∧
    (∀ idx out, main buffer input ≠ .fault (.storeOutOfBounds idx) out) := by
  by_cases hin : input = []
  · subst hin
    refine ⟨by simp [gets_nil], ⟨buffer.bytes, by simp [gets_nil, storeAll], buffer.size_eq⟩, ?_⟩
    intro idx out h
    by_cases hn : NUL ∈ buffer.bytes
    · rw [main_nil_of_mem buffer hn] at h
      cases h
    · rw [main_nil_of_not_mem buffer hn] at h
      cases h
  · have hb : (firstLine input).length < buffer.bytes.length := by
      rw [buffer.size_eq, BUFSZ]; omega
    have e := storeAll_lineStores [] buffer.bytes (firstLine input) hb
    simp only [List.length_nil, List.nil_append] at e
    refine ⟨?_, ⟨_, by rw [gets_eq input hin]; exact e, ?_⟩, ?_⟩
    · intro s hs
      rw [gets_eq input hin] at hs
      have := mem_lineStores_idx hs
      simp only [BUFSZ]
      omega
    · have hsz := buffer.size_eq
      rw [List.length_append, List.length_cons, List.length_drop]
      omega
    · intro idx out h
      rw [main_of_fits buffer input hin hlen] at h
      cases h

theorem gets_in_bounds_on_short_line_witness :
    (firstLine (lit "123456789\nmore")).length ≤ 9 ∧
    (∀ s ∈ (gets (lit "123456789\nmore")).stores, s.idx < BUFSZ) ∧
    (∃ mem, storeAll (filled 1).bytes (gets (lit "123456789\nmore")).stores = .ok mem ∧
      mem.length = BUFSZ) ∧
    (∀ idx out, main (filled 1) (lit "123456789\nmore") ≠ .fault (.storeOutOfBounds idx) out) :=
  ⟨by decide, gets_in_bounds_on_short_line (filled 1) (lit "123456789\nmore") (by decide)⟩

/-- C7. `main` reads exactly one line.  Two inputs with the same first line of
at most 9 bytes, ended by a new-line, give the same output and the same exit
status 0, whatever follows the new-line and whatever the array held before;
the output is made of the line alone, and what follows the new-line is left
unread on standard input. -/
theorem main_reads_one_line (b1 b2 : CharArray BUFSZ) (line rest1 rest2 : List Byte)
    (hline : NEWLINE ∉ line) (hlen : line.length ≤ 9) :
    ∃ out,
      out = lit "Enter your name: " ++
        (lit "Hello, " ++ (line.takeWhile fun b => b ≠ NUL) ++ lit "!\n") ∧
      main b1 (line ++ NEWLINE :: rest1) = .exit 0 out rest1 ∧
      main b2 (line ++ NEWLINE :: rest2) = .exit 0 out rest2 := by
  have key : ∀ (b : CharArray BUFSZ) (rest : List Byte),
      main b (line ++ NEWLINE :: rest) =
        .exit 0 (lit "Enter your name: " ++
          (lit "Hello, " ++ (line.takeWhile fun b => b ≠ NUL) ++ lit "!\n")) rest := by
    intro b rest
    have hfl := firstLine_append_newline line rest hline
    have h := main_of_fits b (line ++ NEWLINE :: rest) (by simp) (by rw [hfl]; exact hlen)
    rw [hfl, drop_append_newline] at h
    exact h
  exact ⟨_, rfl, key b1 rest1, key b2 rest2⟩

theorem main_reads_one_line_witness :
    NEWLINE ∉ lit "Ada" ∧ (lit "Ada").length ≤ 9 ∧
    ∃ out,
      out = lit "Enter your name: " ++
        (lit "Hello, " ++ ((lit "Ada").takeWhile fun b => b ≠ NUL) ++ lit "!\n") ∧
      main (filled 0) (lit "Ada" ++ NEWLINE :: lit "one\ntwo") = .exit 0 out (lit "one\ntwo") ∧
      main (filled 255) (lit "Ada" ++ NEWLINE :: []) = .exit 0 out [] :=
  ⟨by decide, by decide,
    main_reads_one_line (filled 0) (filled 255) (lit "Ada") (lit "one\ntwo") []
      (by decide) (by decide)⟩

/-- C5, amended.  The safer alternative never overflows.  For every input,
`fgets(safe_buffer, sizeof(safe_buffer), stdin)` performs at most 10
assignments, all to indices below 10: at most 9 bytes from the front of the
input and then the terminator (none at all on the empty input); the run ends
with `main` returning 0, so neither these assignments nor the one that cuts at
the new-line leave the array.  When the read succeeds and there is no null byte
among the first `min(9, n)` bytes of the first line, of length `n`, the output
is the prompt followed by `Hello safely, `, these `min(9, n)` bytes, and `!\n`. -/
theorem safeMain_never_overflows (safe_buffer : CharArray BUFSZ) (input : List Byte) :
    ((fgets BUFSZ input).stores.length ≤ BUFSZ ∧
      (∀ s ∈ (fgets BUFSZ input).stores, s.idx < BUFSZ) ∧
      ∃ chunk, chunk <+: input ∧ chunk.length ≤ 9 ∧
        (fgets BUFSZ input).stores.map Store.val =
          if input = [] then [] else chunk ++ [NUL]) ∧
    (∃ out rest, safeMain safe_buffer input = .exit 0 out rest) ∧
    ((fgets BUFSZ input).ok = true →
      NUL ∉ (firstLine input).take (min 9 (firstLine input).length) →
      ∃ rest, safeMain safe_buffer input =
        .exit 0
          (lit "Enter your name safely: " ++
            (lit "Hello safely, " ++
              (firstLine input).take (min 9 (firstLine input).length) ++ lit "!\n"))
          rest) := by
  have htake : (firstLine input).take (min 9 (firstLine input).length) =
      (firstLine input).take 9 := by
    rcases Nat.le_total 9 (firstLine input).length with h | h
    · rw [Nat.min_eq_left h]
    · rw [Nat.min_eq_right h, List.take_length, List.take_of_length_le h]
  by_cases hin : input = []
  · subst hin
    refine ⟨⟨by simp [fgets_nil], by simp [fgets_nil], [], List.prefix_refl _, by simp,
      by simp [fgets_nil]⟩, ⟨_, _, safeMain_nil safe_buffer⟩, ?_⟩
    intro hok
    simp [fgets_nil] at hok
  · have hlen := fgetsChunk_length_le 9 input
    refine ⟨⟨?_, ?_, fgetsChunk 9 input, fgetsChunk_prefix 9 input, hlen, ?_⟩,
      ⟨_, _, safeMain_of_ne_nil safe_buffer input hin⟩, ?_⟩
    · rw [fgets_eq input hin, lineStores_length, BUFSZ]
      omega
    · intro s hs
      rw [fgets_eq input hin] at hs
      have := mem_lineStores_idx hs
      simp only [BUFSZ]
      omega
    · rw [fgets_eq input hin, lineStores_map_val, if_neg hin]
    · intro _ hnul
      rw [htake] at hnul ⊢
      exact ⟨_, by rw [safeMain_of_ne_nil safe_buffer input hin,
        takeWhile_inSpan_fgetsChunk 9 input hnul]⟩

theorem safeMain_never_overflows_witness :
    (fgets BUFSZ (lit "Ada Lovelace\n")).ok = true ∧
    NUL ∉ (firstLine (lit "Ada Lovelace\n")).take
      (min 9 (firstLine (lit "Ada Lovelace\n")).length) ∧
    ∃ rest, safeMain (filled 0x55) (lit "Ada Lovelace\n") =
      .exit 0
        (lit "Enter your name safely: " ++
          (lit "Hello safely, " ++
            (firstLine (lit "Ada Lovelace\n")).take
              (min 9 (firstLine (lit "Ada Lovelace\n")).length) ++ lit "!\n"))
        rest :=
  ⟨by decide, by decide,
    (safeMain_never_overflows (filled 0x55) (lit "Ada Lovelace\n")).2.2 (by decide) (by decide)⟩

/-- C5 as stated fails on a line with a null byte.  On the input `a\0b\n` the
read succeeds and the first line is the 3 bytes `a\0b`, yet the greeting of the
alternative is `Hello safely, a!\n`: `strcspn` and `printf` stop at the null
byte. -/
theorem safeMain_cuts_at_nul :
    (fgets BUFSZ [97, 0, 98, 10]).ok = true ∧
    firstLine [97, 0, 98, 10] = [97, 0, 98] ∧
    safeMain (filled 65) [97, 0, 98, 10] =
      .exit 0 (lit "Enter your name safely: " ++ (lit "Hello safely, " ++ [97] ++ lit "!\n")) [] ∧
    (safeMain (filled 65) [97, 0, 98, 10]).stdout ≠
      lit "Enter your name safely: " ++
        (lit "Hello safely, " ++
          (firstLine [97, 0, 98, 10]).take (min 9 (firstLine [97, 0, 98, 10]).length) ++
          lit "!\n") := by
  decide

end Day02
